import Mathlib

/-!
Shallow embedding of the GoCache in-memory cache engine
(src/internal/cache/cache.go and maintenance.go).

Modelling conventions:
- `time.Time` instants are natural numbers; `t1.After t2` is `t2 < t1`,
  so Go's `!e.expiresAt.After(now)` is `e.expiresAt ≤ now`.
- `time.Duration` (the `ttl` argument) is an integer, since Go durations
  can be negative.
- Byte slices are `List Nat`.  The pure model treats values as immutable
  bytes, so `cloneBytes` is content-wise the identity; buffer identity
  and aliasing are modelled separately by the `Mem` heap model below,
  where `cloneBytesM` allocates a fresh cell.
- Go's `items map[string]*list.Element` maps each key to the list node
  holding the entry with that key.  We model the map's key set as a
  `List String` and resolve a key's node as the entry in `lru` whose
  `key` field matches; this is exactly the Go lookup whenever the map
  and the list agree (the `Inv` invariant below, proved preserved by
  every operation).
- Functions that in Go return an `error` return `Option CacheError`
  (`none` = nil error) paired with the post-state; the Go methods
  mutate the receiver in place.
- The mutex, the context/WaitGroup shutdown machinery and the ticker
  of the maintenance worker are concurrency plumbing with no sequential
  content; the worker's per-tick body (`deleteExpiredLocked`) is
  modelled as `maintenanceTick`.
-/

namespace GoCache

/-- Byte strings stored in and returned by the cache. -/
abbrev Bytes := List Nat

/-- The single error kind of the engine, Go's `ErrClosed`. -/
inductive CacheError where
  | ErrClosed
deriving DecidableEq, Repr

/-- Go's `entry` struct: the value stored in the LRU list elements.
`expiresAt` is meaningful only when `hasExpiry` is true (Go leaves the
zero time in the other case; we leave `0`).  Polymorphic in the value
type so that the same structure serves the pure model (`Bytes`) and the
heap model (buffer references, `Nat`). -/
structure entry (α : Type) where
  key : String
  value : α
  expiresAt : Nat
  hasExpiry : Bool
deriving DecidableEq, Repr

/-- Whether the entry is expired at instant `now`:
Go's `e.hasExpiry && !e.expiresAt.After(now)`. -/
def entry.expiredAt (e : entry α) (now : Nat) : Bool :=
  e.hasExpiry && decide (e.expiresAt ≤ now)

/-- Go's `cloneBytes`.  On immutable byte lists the copy has the same
contents as the input, so the pure model returns it unchanged; the
fresh-buffer aspect is modelled by `cloneBytesM` in the heap model. -/
def cloneBytes (b : Bytes) : Bytes := b

/-- The cache state: capacity bound, the index map's key set, the
recency list (front = MRU, back = LRU) and the closed flag. -/
structure Cache (α : Type) where
  maxEntries : Int
  items : List String
  lru : List (entry α)
  closed : Bool
deriving DecidableEq, Repr

namespace Cache

/-- Go's `deleteLocked`: if the key is in the index, remove it from the
index and remove its node from the recency list. -/
def deleteLocked (key : String) (c : Cache α) : Cache α :=
  if c.items.contains key then
    ⟨c.maxEntries, c.items.erase key,
     c.lru.eraseP (fun e => e.key == key), c.closed⟩
  else c

/-- Go's `deleteIfExpiredLocked`: look the key up; if its entry is
expired at `now`, delete it and report `true`. -/
def deleteIfExpiredLocked (key : String) (now : Nat) (c : Cache α) :
    Bool × Cache α :=
  if c.items.contains key then
    match c.lru.find? (fun e => e.key == key) with
    | some e =>
      if e.expiredAt now then (true, deleteLocked key c) else (false, c)
    | none => (false, c)
  else (false, c)

/-- The per-key test of `deleteExpiredLocked`'s sweep: key `k` survives
when the node it maps to is not expired. -/
def keyLiveAt (now : Nat) (lru : List (entry α)) (k : String) : Bool :=
  match lru.find? (fun e => e.key == k) with
  | some e => !e.expiredAt now
  | none => true

/-- Go's `deleteExpiredLocked`: remove every expired entry from both the
index and the recency list; return how many map entries were removed. -/
def deleteExpiredLocked (now : Nat) (c : Cache α) : Nat × Cache α :=
  let items2 := c.items.filter (keyLiveAt now c.lru)
  (c.items.length - items2.length,
   ⟨c.maxEntries, items2,
    c.lru.filter (fun e => !e.expiredAt now), c.closed⟩)

/-- The `for len(c.items) > c.maxEntries` loop of `evictIfNeededLocked`:
delete the entry at the back (LRU end) of the recency list until the
count is within `maxEntries`.  The Go loop has no fuel; it terminates
because each iteration removes the back node, which under the
index/list agreement invariant shrinks `items` by one, so a fuel of
`items.length` (what `evictIfNeededLocked` passes) is an upper bound on
the number of iterations. -/
def evictLoop : Nat → Cache α → Cache α
  | 0, c => c
  | fuel + 1, c =>
    if (c.items.length : Int) > c.maxEntries then
      match c.lru.getLast? with
      | none => c
      | some e => evictLoop fuel (deleteLocked e.key c)
    else c

/-- Go's `evictIfNeededLocked`: no-op when `maxEntries ≤ 0`; otherwise
first sweep all expired entries, then evict from the LRU end while over
capacity. -/
def evictIfNeededLocked (now : Nat) (c : Cache α) : Cache α :=
  if c.maxEntries ≤ 0 then c
  else
    let c2 := (deleteExpiredLocked now c).2
    evictLoop c2.items.length c2

/-- Go's `Set`: fail with `ErrClosed` on a closed cache; otherwise
compute the expiry (`ttl ≤ 0` means no expiry), overwrite-and-promote
an existing entry or insert a fresh one at the MRU front, then run
capacity enforcement.  The inner `none` branch is unreachable whenever
the index and the recency list agree. -/
def Set (key : String) (value : Bytes) (ttl : Int) (now : Nat)
    (c : Cache Bytes) : Option CacheError × Cache Bytes :=
  if c.closed then (some .ErrClosed, c)
  else
    let hasExpiry := decide (0 < ttl)
    let expiresAt := if 0 < ttl then now + ttl.toNat else 0
    if c.items.contains key then
      match c.lru.find? (fun e => e.key == key) with
      | some e =>
        let e2 : entry Bytes := ⟨e.key, cloneBytes value, expiresAt, hasExpiry⟩
        let c2 : Cache Bytes :=
          ⟨c.maxEntries, c.items,
           e2 :: c.lru.eraseP (fun x => x.key == key), c.closed⟩
        (none, evictIfNeededLocked now c2)
      | none => (none, evictIfNeededLocked now c)
    else
      let e : entry Bytes := ⟨key, cloneBytes value, expiresAt, hasExpiry⟩
      let c2 : Cache Bytes :=
        ⟨c.maxEntries, key :: c.items, e :: c.lru, c.closed⟩
      (none, evictIfNeededLocked now c2)

/-- Go's `Get`: absent keys report not-found; an expired entry is lazily
deleted and reported not-found; a live entry is promoted to the MRU
front and a copy of its value returned.  Go's release-and-reacquire
between the read-locked check and the write-locked re-check observes
the same state in the sequential model, so the re-check collapses into
the single check here.  `Get` never consults the closed flag. -/
def Get (key : String) (now : Nat) (c : Cache Bytes) :
    Option Bytes × Cache Bytes :=
  if c.items.contains key then
    match c.lru.find? (fun e => e.key == key) with
    | some e =>
      if e.expiredAt now then
        (none, (deleteIfExpiredLocked key now c).2)
      else
        (some (cloneBytes e.value),
         ⟨c.maxEntries, c.items,
          e :: c.lru.eraseP (fun x => x.key == key), c.closed⟩)
    | none => (none, c)
  else (none, c)

/-- Go's `Delete`: fail with `ErrClosed` on a closed cache, otherwise
remove the key if present (a successful no-op if absent). -/
def Delete (key : String) (c : Cache α) : Option CacheError × Cache α :=
  if c.closed then (some .ErrClosed, c) else (none, deleteLocked key c)

/-- Go's `Len`: the size of the index map. -/
def Len (c : Cache α) : Nat := c.items.length

/-- Go's `Keys`: the keys of the recency list, MRU first. -/
def Keys (c : Cache α) : List String := c.lru.map entry.key

/-- Go's `Close`: idempotent; the first call marks the cache closed.
(The cancellation of the maintenance worker and the WaitGroup wait are
concurrency plumbing outside the sequential state.) -/
def Close (c : Cache α) : Option CacheError × Cache α :=
  if c.closed then (none, c)
  else (none, ⟨c.maxEntries, c.items, c.lru, true⟩)

/-- Go's `New` (for the sequential state): an open cache with the given
capacity and empty index and recency list. -/
def New (maxEntries : Int) : Cache α := ⟨maxEntries, [], [], false⟩

/-- One tick of the maintenance worker's `expiryLoop`: acquire the lock
and run `deleteExpiredLocked` against the tick's observed time. -/
def maintenanceTick (now : Nat) (c : Cache α) : Cache α :=
  (deleteExpiredLocked now c).2

/-- The entry that `Set key v ttl now` writes (value copied, expiry
computed from `ttl` exactly as in `Set`); a statement helper. -/
def setEntry (key : String) (v : Bytes) (ttl : Int) (now : Nat) :
    entry Bytes :=
  ⟨key, cloneBytes v, if 0 < ttl then now + ttl.toNat else 0,
   decide (0 < ttl)⟩

/-- Folding `Set k v 0 now` over a list of keys; scenario helper for
the LRU test sequences. -/
def setAll (v : Bytes) (now : Nat) (ks : List String) (c : Cache Bytes) :
    Cache Bytes :=
  ks.foldl (fun acc k => (Cache.Set k v 0 now acc).2) c

/-- The joint index/recency invariant of the engine: the index's key
set has no duplicates and is, up to order, exactly the multiset of keys
of the recency list (hence the list holds exactly one node per key). -/
def Inv (c : Cache α) : Prop :=
  c.items.Nodup ∧ c.items.Perm (c.lru.map entry.key)

instance (c : Cache α) : Decidable c.Inv := by
  unfold Inv; infer_instance

end Cache

/-! The heap model of byte buffers, for the value-isolation contract.
Go byte slices are mutable aliased buffers; `cloneBytes` matters
precisely because it allocates fresh backing storage.  `Mem` is a
growing store of buffers addressed by `Nat` references; an entry in
this model stores a reference (`Cache Nat`), `cloneBytesM` allocates a
fresh cell holding a snapshot of the source cell, and mutating a caller
buffer is `Mem.write`. -/

/-- A store of byte buffers: `next` is the next fresh reference, `bufs`
the contents at each reference. -/
structure Mem where
  next : Nat
  bufs : Nat → Bytes

/-- Allocate a fresh buffer holding `bs`; returns its reference. -/
def Mem.alloc (m : Mem) (bs : Bytes) : Nat × Mem :=
  (m.next, ⟨m.next + 1, fun i => if i = m.next then bs else m.bufs i⟩)

/-- Overwrite the buffer at reference `r` (a caller mutating a slice in
place). -/
def Mem.write (m : Mem) (r : Nat) (bs : Bytes) : Mem :=
  ⟨m.next, fun i => if i = r then bs else m.bufs i⟩

/-- Go's `cloneBytes` in the heap model: allocate a fresh buffer with a
snapshot of the contents at `r`. -/
def cloneBytesM (r : Nat) (m : Mem) : Nat × Mem :=
  m.alloc (m.bufs r)

namespace Cache

/-- `Set` in the heap model: the caller passes a buffer reference `r`;
the stored entry holds the reference produced by `cloneBytesM`.
Line-for-line the same structure as `Set` above. -/
def SetM (key : String) (r : Nat) (ttl : Int) (now : Nat)
    (c : Cache Nat) (m : Mem) :
    Option CacheError × Cache Nat × Mem :=
  if c.closed then (some .ErrClosed, c, m)
  else
    let hasExpiry := decide (0 < ttl)
    let expiresAt := if 0 < ttl then now + ttl.toNat else 0
    if c.items.contains key then
      match c.lru.find? (fun e => e.key == key) with
      | some e =>
        let rm := cloneBytesM r m
        let e2 : entry Nat := ⟨e.key, rm.1, expiresAt, hasExpiry⟩
        let c2 : Cache Nat :=
          ⟨c.maxEntries, c.items,
           e2 :: c.lru.eraseP (fun x => x.key == key), c.closed⟩
        (none, evictIfNeededLocked now c2, rm.2)
      | none => (none, evictIfNeededLocked now c, m)
    else
      let rm := cloneBytesM r m
      let e : entry Nat := ⟨key, rm.1, expiresAt, hasExpiry⟩
      let c2 : Cache Nat :=
        ⟨c.maxEntries, key :: c.items, e :: c.lru, c.closed⟩
      (none, evictIfNeededLocked now c2, rm.2)

/-- `Get` in the heap model: a found value is returned as the reference
of a freshly allocated copy of the stored buffer. -/
def GetM (key : String) (now : Nat) (c : Cache Nat) (m : Mem) :
    Option Nat × Cache Nat × Mem :=
  if c.items.contains key then
    match c.lru.find? (fun e => e.key == key) with
    | some e =>
      if e.expiredAt now then
        (none, (deleteIfExpiredLocked key now c).2, m)
      else
        let rm := cloneBytesM e.value m
        (some rm.1,
         ⟨c.maxEntries, c.items,
          e :: c.lru.eraseP (fun x => x.key == key), c.closed⟩, rm.2)
    | none => (none, c, m)
  else (none, c, m)

/-- The byte contents a heap-model `Get` hands to the caller: the
contents of the returned reference in the post-`Get` store. -/
def GetMBytes (key : String) (now : Nat) (c : Cache Nat) (m : Mem) :
    Option Bytes :=
  ((GetM key now c m).1).map (fun r => ((GetM key now c m).2.2).bufs r)

/-! Basic bridging lemmas between the Boolean operations of the model
and propositional membership. -/

theorem contains_eq_decide_mem (l : List String) (k : String) :
    l.contains k = decide (k ∈ l) := by
  simp [List.contains]

theorem map_key_eraseP (l : List (entry α)) (k : String) :
    (l.eraseP (fun e => e.key == k)).map entry.key
      = (l.map entry.key).eraseP (fun s => s == k) := by
  rw [List.eraseP_map]
  rfl

theorem erase_key_eq_eraseP (l : List String) (k : String) :
    l.erase k = l.eraseP (fun s => s == k) :=
  List.erase_eq_eraseP' k l

/-- In a recency list with pairwise-distinct keys, the node found for a
key is exactly the member entry carrying that key. -/
theorem find?_key_of_mem {l : List (entry α)} {e : entry α} {k : String}
    (hnd : (l.map entry.key).Nodup) (he : e ∈ l) (hk : e.key = k) :
    l.find? (fun x => x.key == k) = some e := by
  induction l with
  | nil => cases he
  | cons a t ih =>
    simp only [List.map_cons, List.nodup_cons] at hnd
    rcases List.mem_cons.1 he with rfl | het
    · exact List.find?_cons_of_pos t (by simp [hk])
    · have hne : (a.key == k) = false := by
        refine beq_eq_false_iff_ne.2 (fun hcontr => ?_)
        have hmem : k ∈ t.map entry.key := hk ▸ List.mem_map_of_mem entry.key het
        exact hnd.1 (by rw [hcontr]; exact hmem)
      rw [List.find?_cons, hne]
      exact ih hnd.2 het

theorem find?_key_some {l : List (entry α)} {e : entry α} {k : String}
    (h : l.find? (fun x => x.key == k) = some e) : e ∈ l ∧ e.key = k :=
  ⟨List.mem_of_find?_eq_some h, by
    have := List.find?_some h
    exact beq_iff_eq.1 this⟩

/-! Invariant preservation, one internal operation at a time. -/

theorem Inv.nodup_keys {c : Cache α} (h : c.Inv) :
    (c.lru.map entry.key).Nodup :=
  h.2.nodup h.1

theorem Inv.mem_items_iff {c : Cache α} (h : c.Inv) (k : String) :
    k ∈ c.items ↔ k ∈ c.lru.map entry.key :=
  h.2.mem_iff

theorem Inv.length_eq {c : Cache α} (h : c.Inv) :
    c.items.length = c.lru.length := by
  have := h.2.length_eq
  simpa using this

theorem Inv.deleteLocked {c : Cache α} (h : c.Inv) (k : String) :
    (Cache.deleteLocked k c).Inv := by
  unfold Cache.deleteLocked
  split
  · refine ⟨h.1.erase k, ?_⟩
    show (c.items.erase k).Perm
      ((c.lru.eraseP (fun e => e.key == k)).map entry.key)
    rw [map_key_eraseP, ← List.erase_eq_eraseP']
    exact h.2.erase k
  · exact h

theorem deleteLocked_lru_sublist (k : String) (c : Cache α) :
    (Cache.deleteLocked k c).lru.Sublist c.lru := by
  unfold Cache.deleteLocked
  split
  · exact List.eraseP_sublist c.lru
  · exact List.Sublist.refl c.lru

theorem deleteLocked_maxEntries (k : String) (c : Cache α) :
    (Cache.deleteLocked k c).maxEntries = c.maxEntries := by
  unfold Cache.deleteLocked; split <;> rfl

theorem deleteLocked_closed (k : String) (c : Cache α) :
    (Cache.deleteLocked k c).closed = c.closed := by
  unfold Cache.deleteLocked; split <;> rfl

theorem deleteLocked_length {c : Cache α} {k : String} (hm : k ∈ c.items) :
    (Cache.deleteLocked k c).items.length = c.items.length - 1 := by
  unfold Cache.deleteLocked
  have hc : c.items.contains k = true := by
    rw [contains_eq_decide_mem]; exact decide_eq_true hm
  rw [if_pos hc]
  exact List.length_erase_of_mem hm

theorem Inv.deleteExpiredLocked {c : Cache α} (h : c.Inv) (now : Nat) :
    ((Cache.deleteExpiredLocked now c).2).Inv := by
  unfold Cache.deleteExpiredLocked
  refine ⟨h.1.filter _, ?_⟩
  show (c.items.filter (keyLiveAt now c.lru)).Perm
    ((c.lru.filter (fun e => !e.expiredAt now)).map entry.key)
  have nd1 : (c.items.filter (keyLiveAt now c.lru)).Nodup := h.1.filter _
  have nd2 : ((c.lru.filter (fun e => !e.expiredAt now)).map entry.key).Nodup :=
    (List.Sublist.map entry.key (List.filter_sublist c.lru)).nodup h.nodup_keys
  refine (List.perm_ext_iff_of_nodup nd1 nd2).2 (fun k => ?_)
  constructor
  · intro hk
    have hk1 := List.mem_filter.1 hk
    have hmap := (h.mem_items_iff k).1 hk1.1
    obtain ⟨e, he, hek⟩ := List.mem_map.1 hmap
    have hfind := find?_key_of_mem h.nodup_keys he hek
    have hlive : keyLiveAt now c.lru k = true := hk1.2
    unfold keyLiveAt at hlive
    rw [hfind] at hlive
    refine List.mem_map.2 ⟨e, List.mem_filter.2 ⟨he, ?_⟩, hek⟩
    simpa using hlive
  · intro hk
    obtain ⟨e, hef, hek⟩ := List.mem_map.1 hk
    have he := List.mem_filter.1 hef
    refine List.mem_filter.2 ⟨(h.mem_items_iff k).2
      (List.mem_map.2 ⟨e, he.1, hek⟩), ?_⟩
    unfold keyLiveAt
    rw [find?_key_of_mem h.nodup_keys he.1 hek]
    exact he.2

theorem sweep_not_expired (now : Nat) (c : Cache α) :
    ∀ e ∈ ((Cache.deleteExpiredLocked now c).2).lru,
      e.expiredAt now = false := by
  intro e he
  have := (List.mem_filter.1 he).2
  simpa using this

theorem sweep_maxEntries (now : Nat) (c : Cache α) :
    ((Cache.deleteExpiredLocked now c).2).maxEntries = c.maxEntries := rfl

theorem sweep_closed (now : Nat) (c : Cache α) :
    ((Cache.deleteExpiredLocked now c).2).closed = c.closed := rfl

/-- Invariant preservation for the move-to-front step shared by the
overwrite branch of `Set` and the live branch of `Get`: an entry whose
key is already in the index is placed at the front while the old node
with that key is removed. -/
theorem Inv.promote {c : Cache α} (h : c.Inv) {k : String}
    (hk : k ∈ c.items) (e2 : entry α) (hkey : e2.key = k) :
    Cache.Inv ⟨c.maxEntries, c.items,
      e2 :: c.lru.eraseP (fun x => x.key == k), c.closed⟩ := by
  refine ⟨h.1, ?_⟩
  show c.items.Perm ((e2 :: c.lru.eraseP (fun x => x.key == k)).map entry.key)
  rw [List.map_cons, hkey, map_key_eraseP, ← List.erase_eq_eraseP']
  have hmem : k ∈ c.lru.map entry.key := (h.mem_items_iff k).1 hk
  exact h.2.trans (List.perm_cons_erase hmem)

/-- Invariant preservation for inserting a fresh key at the front. -/
theorem Inv.insertNew {c : Cache α} (h : c.Inv) {k : String}
    (hk : k ∉ c.items) (e : entry α) (hkey : e.key = k) :
    Cache.Inv ⟨c.maxEntries, k :: c.items, e :: c.lru, c.closed⟩ := by
  refine ⟨List.nodup_cons.2 ⟨hk, h.1⟩, ?_⟩
  show (k :: c.items).Perm ((e :: c.lru).map entry.key)
  rw [List.map_cons, hkey]
  exact h.2.cons k

theorem Inv.evictLoop {c : Cache α} (h : c.Inv) (fuel : Nat) :
    (Cache.evictLoop fuel c).Inv := by
  induction fuel generalizing c with
  | zero => exact h
  | succ n ih =>
    unfold Cache.evictLoop
    split
    · cases hl : c.lru.getLast? with
      | none => exact h
      | some e => exact ih (h.deleteLocked e.key)
    · exact h

theorem evictLoop_lru_sublist (fuel : Nat) (c : Cache α) :
    (Cache.evictLoop fuel c).lru.Sublist c.lru := by
  induction fuel generalizing c with
  | zero => exact List.Sublist.refl _
  | succ n ih =>
    unfold Cache.evictLoop
    split
    · cases hl : c.lru.getLast? with
      | none => exact List.Sublist.refl _
      | some e =>
        exact (ih (Cache.deleteLocked e.key c)).trans
          (deleteLocked_lru_sublist e.key c)
    · exact List.Sublist.refl _

theorem evictLoop_maxEntries (fuel : Nat) (c : Cache α) :
    (Cache.evictLoop fuel c).maxEntries = c.maxEntries := by
  induction fuel generalizing c with
  | zero => rfl
  | succ n ih =>
    unfold Cache.evictLoop
    split
    · cases hl : c.lru.getLast? with
      | none => rfl
      | some e => rw [ih, deleteLocked_maxEntries]
    · rfl

theorem evictLoop_closed (fuel : Nat) (c : Cache α) :
    (Cache.evictLoop fuel c).closed = c.closed := by
  induction fuel generalizing c with
  | zero => rfl
  | succ n ih =>
    unfold Cache.evictLoop
    split
    · cases hl : c.lru.getLast? with
      | none => rfl
      | some e => rw [ih, deleteLocked_closed]
    · rfl

/-- The eviction loop removes one entry per iteration while over
capacity, so with nonnegative capacity its result size is bounded by
the larger of the capacity and what the fuel leaves over. -/
theorem evictLoop_length_le {c : Cache α} (h : c.Inv)
    (hM : 0 ≤ c.maxEntries) (fuel : Nat) :
    ((Cache.evictLoop fuel c).items.length : Int)
      ≤ max c.maxEntries ((c.items.length : Int) - fuel) := by
  induction fuel generalizing c with
  | zero =>
    unfold Cache.evictLoop
    exact le_max_of_le_right (by omega)
  | succ n ih =>
    unfold Cache.evictLoop
    split
    · rename_i hgt
      cases hl : c.lru.getLast? with
      | none =>
        have hnil : c.lru = [] := by
          cases hcl : c.lru with
          | nil => rfl
          | cons a t => rw [hcl] at hl; simp [List.getLast?_concat] at hl
        have hlen : c.items.length = 0 := by
          rw [h.length_eq, hnil]; rfl
        exact le_max_of_le_left (by rw [hlen]; exact_mod_cast hM)
      | some e =>
        have he : e ∈ c.lru := List.mem_of_getLast?_eq_some hl
        have hkm : e.key ∈ c.items :=
          (h.mem_items_iff e.key).2 (List.mem_map_of_mem entry.key he)
        have hlen := deleteLocked_length hkm
        have hpos : 0 < c.items.length := List.length_pos.2 (by
          intro hemp; rw [hemp] at hkm; cases hkm)
        have hb := ih (h.deleteLocked e.key)
          (by rw [deleteLocked_maxEntries]; exact hM)
        rw [deleteLocked_maxEntries, hlen] at hb
        refine hb.trans (max_le_max le_rfl ?_)
        omega
    · rename_i hle
      exact le_max_of_le_left (by omega)

theorem Inv.evictIfNeededLocked {c : Cache α} (h : c.Inv) (now : Nat) :
    (Cache.evictIfNeededLocked now c).Inv := by
  unfold Cache.evictIfNeededLocked
  split
  · exact h
  · exact (h.deleteExpiredLocked now).evictLoop _

/-- Main capacity bound: with positive capacity, enforcement leaves at
most `maxEntries` entries. -/
theorem evictIfNeeded_length_le {c : Cache α} (h : c.Inv) (now : Nat)
    (hM : 0 < c.maxEntries) :
    ((Cache.evictIfNeededLocked now c).items.length : Int)
      ≤ c.maxEntries := by
  unfold Cache.evictIfNeededLocked
  rw [if_neg (by omega)]
  have h2 := h.deleteExpiredLocked now
  have hb := evictLoop_length_le h2
    (by rw [sweep_maxEntries]; omega)
    ((Cache.deleteExpiredLocked now c).2).items.length
  rw [sweep_maxEntries] at hb
  refine hb.trans ?_
  simp
  omega

/-- After capacity enforcement with positive capacity, no expired entry
remains: the sweep removed them all and the loop only deletes. -/
theorem evictIfNeeded_not_expired {c : Cache α} (now : Nat)
    (hM : 0 < c.maxEntries) :
    ∀ e ∈ (Cache.evictIfNeededLocked now c).lru,
      e.expiredAt now = false := by
  intro e he
  unfold Cache.evictIfNeededLocked at he
  rw [if_neg (by omega)] at he
  exact sweep_not_expired now c e
    ((evictLoop_lru_sublist _ _).mem he)

theorem evictIfNeeded_maxEntries (now : Nat) (c : Cache α) :
    (Cache.evictIfNeededLocked now c).maxEntries = c.maxEntries := by
  unfold Cache.evictIfNeededLocked
  split
  · rfl
  · rw [evictLoop_maxEntries, sweep_maxEntries]

theorem evictIfNeeded_closed (now : Nat) (c : Cache α) :
    (Cache.evictIfNeededLocked now c).closed = c.closed := by
  unfold Cache.evictIfNeededLocked
  split
  · rfl
  · rw [evictLoop_closed, sweep_closed]

/-- When `maxEntries ≤ 0`, capacity enforcement is a no-op: no sweep
and no eviction. -/
theorem evictIfNeeded_unbounded {c : Cache α} (hM : c.maxEntries ≤ 0)
    (now : Nat) : Cache.evictIfNeededLocked now c = c := by
  unfold Cache.evictIfNeededLocked
  exact if_pos hM

/-- While over capacity the loop evicts from the back, so (under the
invariant) the MRU front entry survives the whole loop. -/
theorem evictLoop_head {c : Cache α} (h : c.Inv) (hM : 0 < c.maxEntries)
    {e : entry α} {t : List (entry α)} (hlru : c.lru = e :: t)
    (fuel : Nat) :
    ∃ t2, (Cache.evictLoop fuel c).lru = e :: t2 := by
  induction fuel generalizing c t with
  | zero => exact ⟨t, hlru⟩
  | succ n ih =>
    unfold Cache.evictLoop
    split
    · rename_i hgt
      cases t with
      | nil =>
        have hlen : c.items.length = 1 := by rw [h.length_eq, hlru]; rfl
        rw [hlen] at hgt
        omega
      | cons b t0 =>
        obtain ⟨la, hla⟩ : ∃ la, (b :: t0).getLast? = some la :=
          ⟨_, List.getLast?_eq_getLast _ (by simp)⟩
        have hlast : c.lru.getLast? = some la := by
          rw [hlru, List.getLast?_cons_cons, hla]
        rw [hlast]
        have hlam : la ∈ b :: t0 := List.mem_of_getLast?_eq_some hla
        have hlak : (e.key == la.key) = false := by
          refine beq_eq_false_iff_ne.2 (fun hcontr => ?_)
          have hnd := h.nodup_keys
          rw [hlru] at hnd
          simp only [List.map_cons, List.nodup_cons] at hnd
          exact hnd.1 (hcontr ▸ List.mem_map_of_mem entry.key hlam)
        have hkm : la.key ∈ c.items :=
          (h.mem_items_iff la.key).2
            (List.mem_map_of_mem entry.key (by rw [hlru]; exact List.mem_cons_of_mem e hlam))
        have hcont : c.items.contains la.key = true := by
          rw [contains_eq_decide_mem]; exact decide_eq_true hkm
        have hdel : (Cache.deleteLocked la.key c).lru
            = e :: (b :: t0).eraseP (fun x => x.key == la.key) := by
          unfold Cache.deleteLocked
          rw [if_pos hcont]
          show (c.lru.eraseP fun x => x.key == la.key) = _
          rw [hlru, List.eraseP_cons, hlak]
          rfl
        exact ih (h.deleteLocked la.key)
          (by rw [deleteLocked_maxEntries]; exact hM) hdel
    · exact ⟨t, hlru⟩

/-- The sweep keeps a live front entry at the front. -/
theorem sweep_head {c : Cache α} {now : Nat} {e : entry α}
    {t : List (entry α)} (hlru : c.lru = e :: t)
    (hlive : e.expiredAt now = false) :
    ((Cache.deleteExpiredLocked now c).2).lru
      = e :: t.filter (fun x => !x.expiredAt now) := by
  show c.lru.filter (fun x => !x.expiredAt now) = _
  rw [hlru, List.filter_cons, hlive]
  rfl

/-- Capacity enforcement keeps a live MRU front entry at the front. -/
theorem evictIfNeeded_head {c : Cache α} (h : c.Inv) {now : Nat}
    {e : entry α} {t : List (entry α)} (hlru : c.lru = e :: t)
    (hlive : e.expiredAt now = false) :
    ∃ t2, (Cache.evictIfNeededLocked now c).lru = e :: t2 := by
  unfold Cache.evictIfNeededLocked
  split
  · exact ⟨t, hlru⟩
  · rename_i hgt
    exact evictLoop_head (h.deleteExpiredLocked now)
      (by rw [sweep_maxEntries]; omega) (sweep_head hlru hlive) _

/-! Characterization of the public operations on invariant-satisfying
states, phrased through membership rather than the model's own
`find?`/`contains` plumbing. -/

theorem contains_true_of_mem_lru {c : Cache α} (h : c.Inv) {e : entry α}
    (he : e ∈ c.lru) {k : String} (hek : e.key = k) :
    c.items.contains k = true := by
  rw [contains_eq_decide_mem]
  exact decide_eq_true ((h.mem_items_iff k).2
    (hek ▸ List.mem_map_of_mem entry.key he))

theorem contains_false_of_not_mem {c : Cache α} (h : c.Inv) {k : String}
    (hk : k ∉ c.lru.map entry.key) :
    c.items.contains k = false := by
  rw [contains_eq_decide_mem]
  exact decide_eq_false (fun hmem => hk ((h.mem_items_iff k).1 hmem))

theorem Get_absent {c : Cache Bytes} (h : c.Inv) {key : String}
    (hk : key ∉ c.lru.map entry.key) (now : Nat) :
    Cache.Get key now c = (none, c) := by
  unfold Cache.Get
  rw [contains_false_of_not_mem h hk]
  rfl

theorem Get_expired {c : Cache Bytes} (h : c.Inv) {e : entry Bytes}
    (he : e ∈ c.lru) {key : String} (hek : e.key = key) {now : Nat}
    (hexp : e.expiredAt now = true) :
    Cache.Get key now c = (none, Cache.deleteLocked key c) := by
  have hcont := contains_true_of_mem_lru h he hek
  have hfind := find?_key_of_mem h.nodup_keys he hek
  unfold Cache.Get Cache.deleteIfExpiredLocked
  rw [hcont, hfind]
  simp [hexp]

theorem Get_live {c : Cache Bytes} (h : c.Inv) {e : entry Bytes}
    (he : e ∈ c.lru) {key : String} (hek : e.key = key) {now : Nat}
    (hexp : e.expiredAt now = false) :
    Cache.Get key now c
      = (some (cloneBytes e.value),
         ⟨c.maxEntries, c.items,
          e :: c.lru.eraseP (fun x => x.key == key), c.closed⟩) := by
  have hcont := contains_true_of_mem_lru h he hek
  have hfind := find?_key_of_mem h.nodup_keys he hek
  unfold Cache.Get
  rw [hcont, hfind]
  simp [hexp]

theorem mem_of_contains {l : List String} {k : String}
    (h : l.contains k = true) : k ∈ l := by
  rw [contains_eq_decide_mem] at h
  exact of_decide_eq_true h

theorem not_mem_of_contains_false {l : List String} {k : String}
    (h : l.contains k = false) : k ∉ l := by
  rw [contains_eq_decide_mem] at h
  intro hm
  rw [decide_eq_true hm] at h
  cases h

theorem Inv.deleteIfExpiredLocked {c : Cache α} (h : c.Inv)
    (key : String) (now : Nat) :
    ((Cache.deleteIfExpiredLocked key now c).2).Inv := by
  unfold Cache.deleteIfExpiredLocked
  by_cases hcont : c.items.contains key = true
  · rw [if_pos hcont]
    cases hfind : c.lru.find? (fun e => e.key == key) with
    | none => exact h
    | some e =>
      simp only []
      by_cases hexp : e.expiredAt now = true
      · rw [if_pos hexp]; exact h.deleteLocked key
      · rw [if_neg hexp]; exact h
  · rw [if_neg hcont]; exact h

theorem Inv.Get {c : Cache Bytes} (h : c.Inv) (key : String) (now : Nat) :
    ((Cache.Get key now c).2).Inv := by
  unfold Cache.Get
  by_cases hcont : c.items.contains key = true
  · rw [if_pos hcont]
    cases hfind : c.lru.find? (fun e => e.key == key) with
    | none => exact h
    | some e =>
      obtain ⟨he, hek⟩ := find?_key_some hfind
      simp only []
      by_cases hexp : e.expiredAt now = true
      · rw [if_pos hexp]; exact h.deleteIfExpiredLocked key now
      · rw [if_neg hexp]; exact h.promote (mem_of_contains hcont) e hek
  · rw [if_neg hcont]; exact h

theorem Inv.Delete {c : Cache α} (h : c.Inv) (key : String) :
    ((Cache.Delete key c).2).Inv := by
  unfold Cache.Delete
  split
  · exact h
  · exact h.deleteLocked key

theorem Inv.Set {c : Cache Bytes} (h : c.Inv) (key : String)
    (v : Bytes) (ttl : Int) (now : Nat) :
    ((Cache.Set key v ttl now c).2).Inv := by
  unfold Cache.Set
  by_cases hcl : c.closed = true
  · rw [if_pos hcl]; exact h
  · rw [if_neg hcl]
    by_cases hcont : c.items.contains key = true
    · rw [if_pos hcont]
      cases hfind : c.lru.find? (fun e => e.key == key) with
      | none => exact h.evictIfNeededLocked now
      | some e =>
        obtain ⟨he, hek⟩ := find?_key_some hfind
        simp only []
        exact Cache.Inv.evictIfNeededLocked
          (h.promote (mem_of_contains hcont)
            ⟨e.key, cloneBytes v, if 0 < ttl then now + ttl.toNat else 0,
             decide (0 < ttl)⟩ hek) now
    · rw [if_neg hcont]
      exact Cache.Inv.evictIfNeededLocked
        (h.insertNew (not_mem_of_contains_false (by
          cases hb : c.items.contains key with
          | false => rfl
          | true => exact absurd hb hcont))
          ⟨key, cloneBytes v, if 0 < ttl then now + ttl.toNat else 0,
           decide (0 < ttl)⟩ rfl) now

theorem contains_false_of_not {l : List String} {k : String}
    (h : ¬ l.contains k = true) : l.contains k = false := by
  cases hb : l.contains k with
  | false => rfl
  | true => exact absurd hb h

/-- The entry written by `Set` is never expired at the instant of the
write: a positive ttl puts the expiry strictly in the future, and a
non-positive ttl stores no expiry at all. -/
theorem setEntry_live (key : String) (v : Bytes) (ttl : Int) (now : Nat) :
    (Cache.setEntry key v ttl now).expiredAt now = false := by
  unfold Cache.setEntry entry.expiredAt
  by_cases h : 0 < ttl
  · have hne : ¬ (now + ttl.toNat ≤ now) := by omega
    simp [h, hne]
  · simp [h]

theorem Set_closed_eq {c : Cache Bytes} (hcl : c.closed = true)
    (key : String) (v : Bytes) (ttl : Int) (now : Nat) :
    Cache.Set key v ttl now c = (some .ErrClosed, c) := by
  unfold Cache.Set
  rw [if_pos hcl]

theorem Delete_closed_eq {c : Cache α} (hcl : c.closed = true)
    (key : String) :
    Cache.Delete key c = (some .ErrClosed, c) := by
  unfold Cache.Delete
  rw [if_pos hcl]

theorem Delete_open_eq {c : Cache α} (hcl : c.closed = false)
    (key : String) :
    Cache.Delete key c = (none, Cache.deleteLocked key c) := by
  unfold Cache.Delete
  rw [if_neg (by rw [hcl]; exact Bool.false_ne_true)]

/-- Structure of a successful `Set` on an open cache: no error, and the
post-state is capacity enforcement applied to an intermediate state
that satisfies the invariant, keeps the capacity and closed flag, and
carries the freshly written entry at the MRU front. -/
theorem Set_open_shape {c : Cache Bytes} (h : c.Inv) (hcl : c.closed = false)
    (key : String) (v : Bytes) (ttl : Int) (now : Nat) :
    ∃ c2 : Cache Bytes, c2.Inv
      ∧ c2.maxEntries = c.maxEntries
      ∧ c2.closed = c.closed
      ∧ (∃ t2, c2.lru = Cache.setEntry key v ttl now :: t2)
      ∧ (∀ x ∈ c.lru, x.key ≠ key → x ∈ c2.lru)
      ∧ Cache.Set key v ttl now c
          = (none, Cache.evictIfNeededLocked now c2) := by
  unfold Cache.Set
  rw [if_neg (by rw [hcl]; exact Bool.false_ne_true)]
  by_cases hcont : c.items.contains key = true
  · rw [if_pos hcont]
    cases hfind : c.lru.find? (fun e => e.key == key) with
    | none =>
      exfalso
      have hmem := (h.mem_items_iff key).1 (mem_of_contains hcont)
      obtain ⟨e, he, hek⟩ := List.mem_map.1 hmem
      have := find?_key_of_mem h.nodup_keys he hek
      rw [hfind] at this
      cases this
    | some e =>
      obtain ⟨he, hek⟩ := find?_key_some hfind
      simp only []
      refine ⟨⟨c.maxEntries, c.items,
        Cache.setEntry key v ttl now :: c.lru.eraseP (fun x => x.key == key),
        c.closed⟩,
        h.promote (mem_of_contains hcont) _ rfl, rfl, rfl, ⟨_, rfl⟩, ?_, ?_⟩
      · intro x hx hxk
        exact List.mem_cons_of_mem _
          ((List.mem_eraseP_of_neg (by simp [hxk])).2 hx)
      · rw [hek]
        rfl
  · rw [if_neg hcont]
    exact ⟨⟨c.maxEntries, key :: c.items,
      Cache.setEntry key v ttl now :: c.lru, c.closed⟩,
      h.insertNew (not_mem_of_contains_false (contains_false_of_not hcont))
        _ rfl, rfl, rfl, ⟨_, rfl⟩,
      fun x hx _ => List.mem_cons_of_mem _ hx, rfl⟩

theorem Inv.Close {c : Cache α} (h : c.Inv) :
    ((Cache.Close c).2).Inv := by
  unfold Cache.Close
  split
  · exact h
  · exact ⟨h.1, h.2⟩

/-! No public operation ever writes `false` into the closed flag; only
`Close` writes `true`. -/

theorem Set_closed_flag (key : String) (v : Bytes) (ttl : Int)
    (now : Nat) (c : Cache Bytes) :
    ((Cache.Set key v ttl now c).2).closed = c.closed := by
  unfold Cache.Set
  by_cases hcl : c.closed = true
  · rw [if_pos hcl]
  · rw [if_neg hcl]
    by_cases hcont : c.items.contains key = true
    · rw [if_pos hcont]
      cases hfind : c.lru.find? (fun e => e.key == key) with
      | none => exact evictIfNeeded_closed now c
      | some e =>
        simp only []
        rw [evictIfNeeded_closed]
    · rw [if_neg hcont]
      rw [evictIfNeeded_closed]

theorem Get_closed_flag (key : String) (now : Nat) (c : Cache Bytes) :
    ((Cache.Get key now c).2).closed = c.closed := by
  unfold Cache.Get
  by_cases hcont : c.items.contains key = true
  · rw [if_pos hcont]
    cases hfind : c.lru.find? (fun e => e.key == key) with
    | none => rfl
    | some e =>
      simp only []
      by_cases hexp : e.expiredAt now = true
      · rw [if_pos hexp]
        show ((Cache.deleteIfExpiredLocked key now c).2).closed = c.closed
        unfold Cache.deleteIfExpiredLocked
        by_cases hcont2 : c.items.contains key = true
        · rw [if_pos hcont2]
          cases hfind2 : c.lru.find? (fun e => e.key == key) with
          | none => rfl
          | some e2 =>
            simp only []
            by_cases hexp2 : e2.expiredAt now = true
            · rw [if_pos hexp2]
              exact deleteLocked_closed key c
            · rw [if_neg hexp2]
        · rw [if_neg hcont2]
      · rw [if_neg hexp]
  · rw [if_neg hcont]

theorem Delete_closed_flag (key : String) (c : Cache α) :
    ((Cache.Delete key c).2).closed = c.closed := by
  unfold Cache.Delete
  by_cases hcl : c.closed = true
  · rw [if_pos hcl]
  · rw [if_neg hcl]
    exact deleteLocked_closed key c

theorem Inv.maintenanceTick {c : Cache α} (h : c.Inv) (now : Nat) :
    (Cache.maintenanceTick now c).Inv :=
  h.deleteExpiredLocked now

end Cache

/-- C1: on an open cache with positive `maxEntries`, every successful
`Set` runs capacity enforcement — all expired entries are reclaimed
(none survives, regardless of recency) and then LRU-end entries are
evicted until the count is at most `maxEntries`; with
`maxEntries ≤ 0`, `Set` still succeeds but performs no eviction and no
expiry sweep (enforcement is the identity and every other entry,
expired or not, survives). -/
theorem C1_capacity_enforcement {c : Cache Bytes} (h : c.Inv)
    (hcl : c.closed = false) (key : String) (v : Bytes) (ttl : Int)
    (now : Nat) :
    (0 < c.maxEntries →
      (((Cache.Set key v ttl now c).2).items.length : Int) ≤ c.maxEntries
        ∧ ∀ e ∈ ((Cache.Set key v ttl now c).2).lru,
            e.expiredAt now = false)
    ∧ (c.maxEntries ≤ 0 →
        (Cache.Set key v ttl now c).1 = none
        ∧ Cache.evictIfNeededLocked now c = c
        ∧ ∀ x ∈ c.lru, x.key ≠ key →
            x ∈ ((Cache.Set key v ttl now c).2).lru) := by
  obtain ⟨c2, hinv2, hmax2, hclosed2, ⟨t2, hlru2⟩, hsurv, heq⟩ :=
    Cache.Set_open_shape h hcl key v ttl now
  constructor
  · intro hM
    rw [heq]
    constructor
    · have hb := Cache.evictIfNeeded_length_le hinv2 now
        (by rw [hmax2]; omega)
      rw [hmax2] at hb
      exact hb
    · exact Cache.evictIfNeeded_not_expired now (by rw [hmax2]; omega)
  · intro hM
    refine ⟨by rw [heq], Cache.evictIfNeeded_unbounded hM now, ?_⟩
    intro x hx hxk
    rw [heq]
    show x ∈ (Cache.evictIfNeededLocked now c2).lru
    rw [Cache.evictIfNeeded_unbounded (by rw [hmax2]; exact hM) now]
    exact hsurv x hx hxk

theorem C1_capacity_enforcement_witness :
    (((Cache.Set "a" [1] 0 5 (Cache.New 2 : Cache Bytes)).2).items.length
      : Int) ≤ 2 :=
  ((C1_capacity_enforcement (by decide) rfl "a" [1] 0 5).1 (by decide)).1

/-- C2: `Get` on an absent key is a not-found no-op; on a present but
expired key it deletes the entry (the key is gone from the recency
list afterwards) and reports not-found; on a present live key it
returns a copy of the stored value and moves the entry to the MRU
front. -/
theorem C2_get_semantics {c : Cache Bytes} (h : c.Inv) (key : String)
    (now : Nat) :
    (key ∉ c.lru.map entry.key → Cache.Get key now c = (none, c))
    ∧ (∀ e ∈ c.lru, e.key = key → e.expiredAt now = true →
        Cache.Get key now c = (none, Cache.deleteLocked key c)
        ∧ key ∉ ((Cache.Get key now c).2).lru.map entry.key)
    ∧ (∀ e ∈ c.lru, e.key = key → e.expiredAt now = false →
        (Cache.Get key now c).1 = some (cloneBytes e.value)
        ∧ ((Cache.Get key now c).2).lru
            = e :: c.lru.eraseP (fun x => x.key == key)) := by
  refine ⟨fun hk => Cache.Get_absent h hk now, ?_, ?_⟩
  · intro e he hek hexp
    have heq := Cache.Get_expired h he hek hexp
    refine ⟨heq, ?_⟩
    rw [heq]
    show key ∉ (Cache.deleteLocked key c).lru.map entry.key
    unfold Cache.deleteLocked
    rw [if_pos (Cache.contains_true_of_mem_lru h he hek)]
    show key ∉ (c.lru.eraseP fun x => x.key == key).map entry.key
    rw [Cache.map_key_eraseP, ← List.erase_eq_eraseP']
    exact h.nodup_keys.not_mem_erase
  · intro e he hek hexp
    have heq := Cache.Get_live h he hek hexp
    rw [heq]
    exact ⟨rfl, rfl⟩

theorem C2_get_semantics_witness :
    Cache.Get "z" 0 (Cache.New 2 : Cache Bytes)
      = (none, (Cache.New 2 : Cache Bytes)) :=
  (C2_get_semantics (by decide) "z" 0).1 (by decide)

/-- C3: a successful `Set` stores at the MRU front an entry whose value
is a copy of the input, whose expiry is `now + ttl` with the expiry
flag set when `ttl > 0`, and which carries no expiry (explicit flag,
not a sentinel time) when `ttl ≤ 0`; an entry without the expiry flag
is never expired, and survives every expiry sweep (capacity-triggered
or from the maintenance worker). -/
theorem C3_ttl_semantics {c : Cache Bytes} (h : c.Inv)
    (hcl : c.closed = false) (key : String) (v : Bytes) (ttl : Int)
    (now : Nat) :
    ((Cache.Set key v ttl now c).1 = none)
    ∧ (∃ t2, ((Cache.Set key v ttl now c).2).lru
        = Cache.setEntry key v ttl now :: t2)
    ∧ ((Cache.setEntry key v ttl now).value = cloneBytes v)
    ∧ (0 < ttl → (Cache.setEntry key v ttl now).hasExpiry = true
        ∧ (Cache.setEntry key v ttl now).expiresAt = now + ttl.toNat)
    ∧ (ttl ≤ 0 → (Cache.setEntry key v ttl now).hasExpiry = false)
    ∧ (∀ (d : Cache Bytes) (e2 : entry Bytes) (n2 : Nat),
        e2.hasExpiry = false →
          e2.expiredAt n2 = false
          ∧ (e2 ∈ d.lru →
              e2 ∈ ((Cache.deleteExpiredLocked n2 d).2).lru
              ∧ e2 ∈ (Cache.maintenanceTick n2 d).lru)) := by
  obtain ⟨c2, hinv2, hmax2, hclosed2, ⟨t2, hlru2⟩, hsurv, heq⟩ :=
    Cache.Set_open_shape h hcl key v ttl now
  refine ⟨by rw [heq], ?_, rfl, ?_, ?_, ?_⟩
  · rw [heq]
    exact Cache.evictIfNeeded_head hinv2 hlru2
      (Cache.setEntry_live key v ttl now)
  · intro hpos
    exact ⟨by simp [Cache.setEntry, hpos], by simp [Cache.setEntry, hpos]⟩
  · intro hnonpos
    simp only [Cache.setEntry, decide_eq_false_iff_not]
    omega
  · intro d e2 n2 hne
    have hexp : e2.expiredAt n2 = false := by
      unfold entry.expiredAt
      rw [hne]
      rfl
    refine ⟨hexp, fun hmem => ⟨?_, ?_⟩⟩
    · show e2 ∈ d.lru.filter fun x => !x.expiredAt n2
      exact List.mem_filter.2 ⟨hmem, by rw [hexp]; rfl⟩
    · show e2 ∈ d.lru.filter fun x => !x.expiredAt n2
      exact List.mem_filter.2 ⟨hmem, by rw [hexp]; rfl⟩

theorem C3_ttl_semantics_witness :
    (Cache.Set "a" [7] 5 100 (Cache.New 2 : Cache Bytes)).1 = none :=
  (C3_ttl_semantics (by decide) rfl "a" [7] 5 100).1

/-- C5: `Set` and `Delete` fail with `ErrClosed` exactly when the cache
is closed and leave the state unchanged in that case; on an open cache
`Delete` succeeds whether or not the key is present (removing it when
present, a no-op when absent); `Get` has no error outcome at all —
absence and expiry both surface as the single not-found result. -/
theorem C5_error_taxonomy {c : Cache Bytes} (h : c.Inv)
    (key k2 k3 : String) (v : Bytes) (ttl : Int) (now n2 : Nat) :
    ((Cache.Set key v ttl now c).1 = some .ErrClosed ↔ c.closed = true)
    ∧ ((Cache.Delete k2 c).1 = some .ErrClosed ↔ c.closed = true)
    ∧ (c.closed = true →
        (Cache.Set key v ttl now c).2 = c ∧ (Cache.Delete k2 c).2 = c)
    ∧ (c.closed = false →
        (Cache.Delete k2 c).1 = none
        ∧ (k2 ∉ c.items → (Cache.Delete k2 c).2 = c)
        ∧ (k2 ∈ c.items → k2 ∉ ((Cache.Delete k2 c).2).items))
    ∧ (k3 ∉ c.lru.map entry.key → (Cache.Get k3 n2 c).1 = none)
    ∧ (∀ e ∈ c.lru, e.key = k3 → e.expiredAt n2 = true →
        (Cache.Get k3 n2 c).1 = none) := by
  have hget1 : k3 ∉ c.lru.map entry.key → (Cache.Get k3 n2 c).1 = none := by
    intro hk
    rw [Cache.Get_absent h hk n2]
  have hget2 : ∀ e ∈ c.lru, e.key = k3 → e.expiredAt n2 = true →
      (Cache.Get k3 n2 c).1 = none := by
    intro e he hek hexp
    rw [Cache.Get_expired h he hek hexp]
  by_cases hcl : c.closed = true
  · have hs := Cache.Set_closed_eq hcl key v ttl now
    have hd := Cache.Delete_closed_eq hcl k2
    refine ⟨by rw [hs]; simp [hcl], by rw [hd]; simp [hcl],
      fun _ => ⟨by rw [hs], by rw [hd]⟩,
      fun (hcontr : c.closed = false) => by
        rw [hcontr] at hcl; simp at hcl, hget1, hget2⟩
  · have hclf : c.closed = false := by
      cases hb : c.closed with
      | false => rfl
      | true => exact absurd hb hcl
    obtain ⟨c2, _, _, _, _, _, heq⟩ :=
      Cache.Set_open_shape h hclf key v ttl now
    have hdo := Cache.Delete_open_eq hclf k2
    refine ⟨by rw [heq]; simp [hclf], by rw [hdo]; simp [hclf],
      fun (hcontr : c.closed = true) => by
        rw [hcontr] at hclf; simp at hclf,
      fun _ => ⟨by rw [hdo], ?_, ?_⟩, hget1, hget2⟩
    · intro hk
      rw [hdo]
      show Cache.deleteLocked k2 c = c
      unfold Cache.deleteLocked
      rw [if_neg (by rw [Cache.contains_eq_decide_mem]; simp [hk])]
    · intro hk
      rw [hdo]
      show k2 ∉ (Cache.deleteLocked k2 c).items
      unfold Cache.deleteLocked
      rw [if_pos (by
        rw [Cache.contains_eq_decide_mem]
        exact decide_eq_true hk)]
      exact h.1.not_mem_erase

theorem C5_error_taxonomy_witness :
    (Cache.Delete "b" (Cache.New 2 : Cache Bytes)).1 = none :=
  (((C5_error_taxonomy (by decide) "a" "b" "z" [] 0 0 0).2.2.2).1 rfl).1

/-- C7: `Len` counts every stored entry, expired-but-unreclaimed ones
included (it is the index size, equal to the recency-list length), so
it can exceed the number of keys `Get` would find: a concrete cache
holding one already-expired entry has `Len = 1` while `Get` finds no
key at all. -/
theorem C7_len_accounting {c : Cache Bytes} (h : c.Inv) :
    Cache.Len c = c.items.length
    ∧ Cache.Len c = c.lru.length
    ∧ Cache.Len (⟨0, ["x"], [⟨"x", [9], 5, true⟩], false⟩ : Cache Bytes) = 1
    ∧ ∀ k : String,
        (Cache.Get k 10
          (⟨0, ["x"], [⟨"x", [9], 5, true⟩], false⟩ : Cache Bytes)).1
          = none := by
  refine ⟨rfl, h.length_eq, rfl, ?_⟩
  intro k
  by_cases hk : k = "x"
  · subst hk
    rw [@Cache.Get_expired
      (⟨0, ["x"], [⟨"x", [9], 5, true⟩], false⟩ : Cache Bytes) (by decide)
      ⟨"x", [9], 5, true⟩ (by decide) "x" rfl 10 (by decide)]
  · rw [@Cache.Get_absent
      (⟨0, ["x"], [⟨"x", [9], 5, true⟩], false⟩ : Cache Bytes) (by decide)
      k (by simp [hk]) 10]

theorem C7_len_accounting_witness :
    Cache.Len (Cache.New 2 : Cache Bytes) = 0 :=
  (C7_len_accounting (by decide)).1

/-- C8: the closed flag moves one way only — `Close` always succeeds
and leaves the cache closed, a second `Close` is an effect-free
success, and no operation ever writes the flag back to open. -/
theorem C8_close_one_way (c : Cache Bytes) (key k2 k3 : String)
    (v : Bytes) (ttl : Int) (now n2 : Nat) :
    (Cache.Close c).1 = none
    ∧ ((Cache.Close c).2).closed = true
    ∧ (c.closed = true → Cache.Close c = (none, c))
    ∧ ((Cache.Set key v ttl now c).2).closed = c.closed
    ∧ ((Cache.Get k2 n2 c).2).closed = c.closed
    ∧ ((Cache.Delete k3 c).2).closed = c.closed := by
  refine ⟨?_, ?_, ?_, Cache.Set_closed_flag key v ttl now c,
    Cache.Get_closed_flag k2 n2 c, Cache.Delete_closed_flag k3 c⟩
  · unfold Cache.Close
    by_cases hcl : c.closed = true
    · rw [if_pos hcl]
    · rw [if_neg hcl]
  · unfold Cache.Close
    by_cases hcl : c.closed = true
    · rw [if_pos hcl]
      exact hcl
    · rw [if_neg hcl]
  · intro hcl
    unfold Cache.Close
    rw [if_pos hcl]

theorem C8_close_one_way_witness :
    Cache.Close (⟨2, [], [], true⟩ : Cache Bytes)
      = (none, (⟨2, [], [], true⟩ : Cache Bytes)) :=
  (C8_close_one_way ⟨2, [], [], true⟩ "a" "b" "c" [] 0 0 0).2.2.1 rfl

/-- C10: `Get` never consults the closed flag — on a closed cache it
still returns (a copy of) a live entry's value and promotes it to the
MRU front, and still deletes an expired entry — while the same closed
cache rejects `Set` and `Delete` with `ErrClosed` and unchanged
state. -/
theorem C10_get_ignores_closed {c : Cache Bytes} (h : c.Inv)
    (hcl : c.closed = true) (key : String) (v : Bytes) (ttl : Int)
    (now : Nat) :
    (∀ e ∈ c.lru, e.key = key → e.expiredAt now = false →
      (Cache.Get key now c).1 = some (cloneBytes e.value)
      ∧ ((Cache.Get key now c).2).lru
          = e :: c.lru.eraseP (fun x => x.key == key))
    ∧ (∀ e ∈ c.lru, e.key = key → e.expiredAt now = true →
      Cache.Get key now c = (none, Cache.deleteLocked key c))
    ∧ Cache.Set key v ttl now c = (some .ErrClosed, c)
    ∧ Cache.Delete key c = (some .ErrClosed, c) := by
  refine ⟨?_, ?_, Cache.Set_closed_eq hcl key v ttl now,
    Cache.Delete_closed_eq hcl key⟩
  · intro e he hek hexp
    have heq := Cache.Get_live h he hek hexp
    rw [heq]
    exact ⟨rfl, rfl⟩
  · intro e he hek hexp
    exact Cache.Get_expired h he hek hexp

theorem C10_get_ignores_closed_witness :
    (Cache.Get "x" 7
      (⟨2, ["x"], [⟨"x", [3], 0, false⟩], true⟩ : Cache Bytes)).1
      = some (cloneBytes [3]) :=
  ((C10_get_ignores_closed (by decide) rfl "x" [] 0 7).1
    ⟨"x", [3], 0, false⟩ (by decide) rfl (by decide)).1

/-- C6: the index key set and the recency list's key multiset coincide
(one node per key), every operation of the engine preserves this joint
invariant (and a fresh cache satisfies it), and recency is refreshed by
both `Set` and `Get`: each puts the touched key's entry at the MRU
front. -/
theorem C6_joint_invariant {c : Cache Bytes} (h : c.Inv)
    (key k2 k3 : String) (v : Bytes) (ttl : Int)
    (now n2 n3 n4 : Nat) (m : Int) :
    (∀ k : String, k ∈ c.items ↔ k ∈ c.lru.map entry.key)
    ∧ (c.lru.map entry.key).Nodup
    ∧ ((Cache.Set key v ttl now c).2).Inv
    ∧ ((Cache.Get k2 n2 c).2).Inv
    ∧ ((Cache.Delete k3 c).2).Inv
    ∧ ((Cache.Close c).2).Inv
    ∧ (Cache.evictIfNeededLocked n3 c).Inv
    ∧ ((Cache.deleteExpiredLocked n4 c).2).Inv
    ∧ (Cache.maintenanceTick n4 c).Inv
    ∧ (Cache.New m : Cache Bytes).Inv
    ∧ (c.closed = false → ∃ t2, ((Cache.Set key v ttl now c).2).lru
        = Cache.setEntry key v ttl now :: t2)
    ∧ (∀ e ∈ c.lru, e.key = k2 → e.expiredAt n2 = false →
        ((Cache.Get k2 n2 c).2).lru
          = e :: c.lru.eraseP (fun x => x.key == k2)) := by
  refine ⟨h.mem_items_iff, h.nodup_keys, h.Set key v ttl now, h.Get k2 n2,
    h.Delete k3, h.Close, h.evictIfNeededLocked n3,
    h.deleteExpiredLocked n4, h.maintenanceTick n4,
    ⟨List.nodup_nil, List.Perm.refl _⟩, ?_, ?_⟩
  · intro hcl
    obtain ⟨c2, hinv2, _, _, ⟨t2, hlru2⟩, _, heq⟩ :=
      Cache.Set_open_shape h hcl key v ttl now
    rw [heq]
    exact Cache.evictIfNeeded_head hinv2 hlru2
      (Cache.setEntry_live key v ttl now)
  · intro e he hek hexp
    rw [Cache.Get_live h he hek hexp]

theorem C6_joint_invariant_witness :
    ((Cache.Set "a" [1] 0 3 (Cache.New 1 : Cache Bytes)).2).Inv :=
  (C6_joint_invariant (by decide) "a" "b" "c" [1] 0 3 0 0 0 5).2.2.1

namespace Cache

theorem evictIfNeeded_lru_sublist (now : Nat) (c : Cache α) :
    (Cache.evictIfNeededLocked now c).lru.Sublist c.lru := by
  unfold Cache.evictIfNeededLocked
  split
  · exact List.Sublist.refl _
  · exact (evictLoop_lru_sublist _ _).trans (List.filter_sublist _)

/-- In a list whose keys are pairwise distinct, a member carrying the
head's key is the head. -/
theorem eq_head_of_key {l : List (entry α)} {hd : entry α}
    {t : List (entry α)} (hnd : (l.map entry.key).Nodup)
    (hl : l = hd :: t) {e : entry α} (he : e ∈ l)
    (hek : e.key = hd.key) : e = hd := by
  subst hl
  rcases List.mem_cons.1 he with rfl | het
  · rfl
  · exfalso
    simp only [List.map_cons, List.nodup_cons] at hnd
    exact hnd.1 (hek ▸ List.mem_map_of_mem entry.key het)

/-- Reading back the cell `cloneBytesM` just wrote yields the cloned
contents. -/
theorem cloneBytesM_read (v : Nat) (m : Mem) :
    (cloneBytesM v m).2.bufs (cloneBytesM v m).1 = m.bufs v := by
  unfold cloneBytesM Mem.alloc
  simp

/-- The bytes `GetM` hands out depend on the store only through the
buffers of the entries carrying the requested key. -/
theorem GetMBytes_mem_congr {d : Cache Nat} (key : String) (now2 : Nat)
    {m1 m2 : Mem}
    (hsame : ∀ e ∈ d.lru, e.key = key →
      m1.bufs e.value = m2.bufs e.value) :
    Cache.GetMBytes key now2 d m1 = Cache.GetMBytes key now2 d m2 := by
  unfold Cache.GetMBytes Cache.GetM
  by_cases hcont : d.items.contains key = true
  · rw [if_pos hcont, if_pos hcont]
    cases hfind : d.lru.find? (fun e => e.key == key) with
    | none => rfl
    | some e =>
      obtain ⟨he, hek⟩ := find?_key_some hfind
      simp only []
      by_cases hexp : e.expiredAt now2 = true
      · rw [if_pos hexp, if_pos hexp]
        rfl
      · rw [if_neg hexp, if_neg hexp]
        show some ((cloneBytesM e.value m1).2.bufs (cloneBytesM e.value m1).1)
          = some ((cloneBytesM e.value m2).2.bufs (cloneBytesM e.value m2).1)
        rw [cloneBytesM_read, cloneBytesM_read, hsame e he hek]
  · rw [if_neg hcont, if_neg hcont]
    rfl

/-- Structure of a successful heap-model `SetM` on an open cache: the
post-state is capacity enforcement over an intermediate state carrying
at the MRU front the written entry, whose buffer reference is the
freshly allocated `m.next`; the post-store is the allocation of the
clone of the caller's buffer. -/
theorem SetM_open_shape {c : Cache Nat} (h : c.Inv)
    (hcl : c.closed = false) (key : String) (r : Nat) (ttl : Int)
    (now : Nat) (m : Mem) :
    ∃ c2 : Cache Nat, c2.Inv
      ∧ (∃ t2, c2.lru
          = (⟨key, m.next, if 0 < ttl then now + ttl.toNat else 0,
              decide (0 < ttl)⟩ : entry Nat) :: t2)
      ∧ Cache.SetM key r ttl now c m
          = (none, Cache.evictIfNeededLocked now c2,
             (m.alloc (m.bufs r)).2) := by
  unfold Cache.SetM
  have hclne : ¬ (c.closed = true) := by
    rw [hcl]
    exact Bool.false_ne_true
  rw [if_neg hclne]
  by_cases hcont : c.items.contains key = true
  · rw [if_pos hcont]
    cases hfind : c.lru.find? (fun e => e.key == key) with
    | none =>
      exfalso
      have hmem := (h.mem_items_iff key).1 (mem_of_contains hcont)
      obtain ⟨e, he, hek⟩ := List.mem_map.1 hmem
      have := find?_key_of_mem h.nodup_keys he hek
      rw [hfind] at this
      cases this
    | some e =>
      obtain ⟨he, hek⟩ := find?_key_some hfind
      simp only []
      refine ⟨⟨c.maxEntries, c.items,
        (⟨key, m.next, if 0 < ttl then now + ttl.toNat else 0,
          decide (0 < ttl)⟩ : entry Nat)
          :: c.lru.eraseP (fun x => x.key == key), c.closed⟩,
        h.promote (mem_of_contains hcont) _ rfl, ⟨_, rfl⟩, ?_⟩
      rw [hek]
      rfl
  · rw [if_neg hcont]
    exact ⟨⟨c.maxEntries, key :: c.items,
      (⟨key, m.next, if 0 < ttl then now + ttl.toNat else 0,
        decide (0 < ttl)⟩ : entry Nat) :: c.lru, c.closed⟩,
      h.insertNew (not_mem_of_contains_false (contains_false_of_not hcont))
        _ rfl, ⟨_, rfl⟩, rfl⟩

end Cache

/-- C9: value isolation in the heap model. Writing through the buffer a
caller passed to `SetM` (a reference older than the allocation point)
does not change the bytes a later `GetM` of that key observes, because
`SetM` stores a freshly allocated clone; and writing through the buffer
`GetM` returned does not change what a subsequent `GetM` of the same
key observes, because `GetM` hands out a freshly allocated clone while
the cache keeps only its own older references. -/
theorem C9_value_isolation {c : Cache Nat} (h : c.Inv) (key : String)
    (r : Nat) (ttl : Int) (now now2 : Nat) (m : Mem) (bs : Bytes) :
    (c.closed = false → r < m.next →
      Cache.GetMBytes key now2 (Cache.SetM key r ttl now c m).2.1
          (((Cache.SetM key r ttl now c m).2.2).write r bs)
        = Cache.GetMBytes key now2 (Cache.SetM key r ttl now c m).2.1
            (Cache.SetM key r ttl now c m).2.2)
    ∧ ((∀ e ∈ c.lru, e.value < m.next) →
        ∀ r1, (Cache.GetM key now c m).1 = some r1 →
          Cache.GetMBytes key now2 (Cache.GetM key now c m).2.1
              (((Cache.GetM key now c m).2.2).write r1 bs)
            = Cache.GetMBytes key now2 (Cache.GetM key now c m).2.1
                (Cache.GetM key now c m).2.2) := by
  constructor
  · intro hcl hr
    obtain ⟨c2, hinv2, ⟨t2, hlru2⟩, heq⟩ :=
      Cache.SetM_open_shape h hcl key r ttl now m
    rw [heq]
    apply Cache.GetMBytes_mem_congr
    intro e he hek
    have he2 : e ∈ c2.lru :=
      (Cache.evictIfNeeded_lru_sublist now c2).subset he
    have heqhd := Cache.eq_head_of_key hinv2.nodup_keys hlru2 he2 hek
    have hev : e.value = m.next := by rw [heqhd]
    show (Mem.write (m.alloc (m.bufs r)).2 r bs).bufs e.value
      = (m.alloc (m.bufs r)).2.bufs e.value
    unfold Mem.write
    simp only []
    rw [if_neg (by omega)]
  · intro hvalid r1 hr1
    by_cases hcont : c.items.contains key = true
    · cases hfind : c.lru.find? (fun e => e.key == key) with
      | none =>
        exfalso
        unfold Cache.GetM at hr1
        rw [if_pos hcont, hfind] at hr1
        simp at hr1
      | some e =>
        obtain ⟨he, hek⟩ := Cache.find?_key_some hfind
        by_cases hexp : e.expiredAt now = true
        · exfalso
          unfold Cache.GetM at hr1
          rw [if_pos hcont, hfind] at hr1
          simp only [] at hr1
          rw [if_pos hexp] at hr1
          simp at hr1
        · have hGet : Cache.GetM key now c m
              = (some (cloneBytesM e.value m).1,
                 ⟨c.maxEntries, c.items,
                  e :: c.lru.eraseP (fun x => x.key == key), c.closed⟩,
                 (cloneBytesM e.value m).2) := by
            unfold Cache.GetM
            rw [if_pos hcont, hfind]
            simp only []
            rw [if_neg hexp]
          have hr1v : r1 = m.next := by
            rw [hGet] at hr1
            exact (Option.some.inj hr1).symm
          rw [hGet]
          apply Cache.GetMBytes_mem_congr
          intro e2 he2 _
          have he2v : e2.value < m.next := by
            rcases List.mem_cons.1 he2 with rfl | h2
            · exact hvalid _ he
            · exact hvalid e2 ((List.eraseP_sublist _).subset h2)
          show (Mem.write (cloneBytesM e.value m).2 r1 bs).bufs e2.value
            = (cloneBytesM e.value m).2.bufs e2.value
          unfold Mem.write
          simp only []
          rw [if_neg (by omega)]
    · exfalso
      unfold Cache.GetM at hr1
      rw [if_neg hcont] at hr1
      simp at hr1

theorem C9_value_isolation_witness :
    Cache.GetMBytes "x" 9
        (Cache.SetM "x" 0 0 5
          (⟨2, ["x"], [⟨"x", 0, 0, false⟩], false⟩ : Cache Nat)
          ⟨1, fun _ => [7]⟩).2.1
        (((Cache.SetM "x" 0 0 5
          (⟨2, ["x"], [⟨"x", 0, 0, false⟩], false⟩ : Cache Nat)
          ⟨1, fun _ => [7]⟩).2.2).write 0 [9])
      = Cache.GetMBytes "x" 9
          (Cache.SetM "x" 0 0 5
            (⟨2, ["x"], [⟨"x", 0, 0, false⟩], false⟩ : Cache Nat)
            ⟨1, fun _ => [7]⟩).2.1
          (Cache.SetM "x" 0 0 5
            (⟨2, ["x"], [⟨"x", 0, 0, false⟩], false⟩ : Cache Nat)
            ⟨1, fun _ => [7]⟩).2.2 :=
  (C9_value_isolation (by decide) "x" 0 0 5 9 ⟨1, fun _ => [7]⟩ [9]).1
    rfl (by decide)

namespace Cache

/-- A sweep over entries none of which is expired changes nothing. -/
theorem sweep_id {c : Cache α} {now : Nat}
    (hlive : ∀ e ∈ c.lru, e.expiredAt now = false) :
    ((Cache.deleteExpiredLocked now c).2) = c := by
  unfold Cache.deleteExpiredLocked
  have hlru : c.lru.filter (fun e => !e.expiredAt now) = c.lru :=
    List.filter_eq_self.2 (fun e he => by rw [hlive e he]; rfl)
  have hitems : c.items.filter (keyLiveAt now c.lru) = c.items := by
    refine List.filter_eq_self.2 (fun k hk => ?_)
    unfold keyLiveAt
    cases hfind : c.lru.find? (fun e => e.key == k) with
    | none => rfl
    | some e =>
      simp only []
      rw [hlive e (List.mem_of_find?_eq_some hfind)]
      rfl
  show (⟨c.maxEntries, c.items.filter (keyLiveAt now c.lru),
    c.lru.filter (fun e => !e.expiredAt now), c.closed⟩ : Cache α) = c
  rw [hlru, hitems]

/-- The eviction loop stops at once when the count is within bounds. -/
theorem evictLoop_stop {c : Cache α} (fuel : Nat)
    (hlen : ¬ ((c.items.length : Int) > c.maxEntries)) :
    Cache.evictLoop fuel c = c := by
  cases fuel with
  | zero => rfl
  | succ n =>
    unfold Cache.evictLoop
    rw [if_neg hlen]

/-- Capacity enforcement is the identity when nothing is expired and
the count is within bounds. -/
theorem evictIfNeeded_id {c : Cache α} {now : Nat}
    (hlive : ∀ e ∈ c.lru, e.expiredAt now = false)
    (hlen : (c.items.length : Int) ≤ c.maxEntries) :
    Cache.evictIfNeededLocked now c = c := by
  unfold Cache.evictIfNeededLocked
  by_cases hM : c.maxEntries ≤ 0
  · rw [if_pos hM]
  · rw [if_neg hM, sweep_id hlive]
    show Cache.evictLoop c.items.length c = c
    exact evictLoop_stop _ (by omega)

/-- One unfolding of the eviction loop. -/
theorem evictLoop_succ (n : Nat) (c : Cache α) :
    Cache.evictLoop (n + 1) c
      = if (c.items.length : Int) > c.maxEntries then
          match c.lru.getLast? with
          | none => c
          | some e => Cache.evictLoop n (Cache.deleteLocked e.key c)
        else c := rfl

/-- A state whose index is a duplicate-free key list and whose recency
list carries exactly the matching freshly written entries satisfies
the invariant. -/
theorem Inv_of_keyState (N : Int) (l : List String) (hnd : l.Nodup)
    (v : Bytes) (now : Nat) :
    (⟨N, l, l.map (fun k => Cache.setEntry k v 0 now), false⟩
      : Cache Bytes).Inv := by
  refine ⟨hnd, ?_⟩
  show l.Perm ((l.map (fun k => Cache.setEntry k v 0 now)).map entry.key)
  rw [List.map_map]
  have hcomp : (entry.key ∘ fun k => Cache.setEntry k v 0 now)
      = fun k : String => k := funext fun k => rfl
  rw [hcomp, List.map_id']

/-- Folding `Set` with fresh distinct keys over a canonical state just
prepends the keys (reversed) to both structures: no eviction happens
while the capacity accommodates them. -/
theorem setAll_fresh (v : Bytes) (now : Nat) (N : Int) :
    ∀ (ks rs : List String), (ks ++ rs).Nodup →
      ((ks.length : Int) + (rs.length : Int) ≤ N) →
      Cache.setAll v now ks
        (⟨N, rs, rs.map (fun k => Cache.setEntry k v 0 now), false⟩
          : Cache Bytes)
        = ⟨N, ks.reverse ++ rs,
           (ks.reverse ++ rs).map (fun k => Cache.setEntry k v 0 now),
           false⟩ := by
  intro ks
  induction ks with
  | nil =>
    intro rs hnd hlen
    simp [Cache.setAll]
  | cons k ks2 ih =>
    intro rs hnd hlen
    have hk : k ∉ rs := by
      intro hmem
      rcases List.nodup_cons.1 hnd with ⟨hk1, _⟩
      exact hk1 (List.mem_append.2 (Or.inr hmem))
    have hstep : (Cache.Set k v 0 now
        (⟨N, rs, rs.map (fun k2 => Cache.setEntry k2 v 0 now), false⟩
          : Cache Bytes)).2
        = ⟨N, k :: rs, (k :: rs).map (fun k2 => Cache.setEntry k2 v 0 now),
           false⟩ := by
      unfold Cache.Set
      rw [if_neg (fun hcontr : false = true => Bool.noConfusion hcontr)]
      rw [if_neg (fun hcontr => hk (mem_of_contains hcontr))]
      show Cache.evictIfNeededLocked now
        (⟨N, k :: rs, Cache.setEntry k v 0 now
          :: rs.map (fun k2 => Cache.setEntry k2 v 0 now), false⟩
          : Cache Bytes) = _
      refine evictIfNeeded_id ?_ ?_
      · intro e he
        rcases List.mem_cons.1 he with rfl | hmem
        · exact setEntry_live k v 0 now
        · obtain ⟨k3, _, rfl⟩ := List.mem_map.1 hmem
          exact setEntry_live k3 v 0 now
      · show (((k :: rs).length : Int)) ≤ N
        simp only [List.length_cons] at hlen ⊢
        push_cast at hlen ⊢
        omega
    have hcons : Cache.setAll v now (k :: ks2)
        (⟨N, rs, rs.map (fun k2 => Cache.setEntry k2 v 0 now), false⟩
          : Cache Bytes)
        = Cache.setAll v now ks2
            ((Cache.Set k v 0 now
              (⟨N, rs, rs.map (fun k2 => Cache.setEntry k2 v 0 now),
                false⟩ : Cache Bytes)).2) := rfl
    rw [hcons, hstep, ih (k :: rs)
      ((List.perm_middle.symm).nodup hnd)
      (by simp only [List.length_cons] at hlen ⊢; push_cast at hlen ⊢; omega)]
    simp

/-- The keys of a canonical freshly written recency list. -/
theorem map_key_keyState (l : List String) (v : Bytes) (now : Nat) :
    (l.map (fun k => Cache.setEntry k v 0 now)).map entry.key = l := by
  rw [List.map_map]
  have hcomp : (entry.key ∘ fun k => Cache.setEntry k v 0 now)
      = fun k : String => k := funext fun k => rfl
  rw [hcomp, List.map_id']

/-- Setting one more fresh key into a full canonical cache (capacity =
current count) evicts exactly the LRU-end key, the oldest insertion. -/
theorem set_evicts_lru (v : Bytes) (now : Nat) (k2 khd : String)
    (ktl : List String) (hnd : (khd :: ktl).Nodup)
    (hk2 : k2 ∉ khd :: ktl) :
    (Cache.Set k2 v 0 now
      (⟨((khd :: ktl).length : Int), (khd :: ktl).reverse,
        ((khd :: ktl).reverse).map (fun k => Cache.setEntry k v 0 now),
        false⟩ : Cache Bytes)).2
      = ⟨((khd :: ktl).length : Int), k2 :: ktl.reverse,
         (k2 :: ktl.reverse).map (fun k => Cache.setEntry k v 0 now),
         false⟩ := by
  have hkhd_tl : khd ∉ ktl := (List.nodup_cons.1 hnd).1
  have hne : k2 ≠ khd := fun hcontr =>
    hk2 (hcontr ▸ List.mem_cons_self khd ktl)
  have hknotin_rev : k2 ∉ (khd :: ktl).reverse := fun hcontr =>
    hk2 (List.mem_reverse.1 hcontr)
  have hkhd_notin_rev : khd ∉ ktl.reverse := fun hcontr =>
    hkhd_tl (List.mem_reverse.1 hcontr)
  unfold Cache.Set
  rw [if_neg (fun hcontr : false = true => Bool.noConfusion hcontr)]
  rw [if_neg (fun hcontr => hknotin_rev (mem_of_contains hcontr))]
  show Cache.evictIfNeededLocked now
    (⟨((khd :: ktl).length : Int), k2 :: (khd :: ktl).reverse,
      Cache.setEntry k2 v 0 now
        :: ((khd :: ktl).reverse).map (fun k => Cache.setEntry k v 0 now),
      false⟩ : Cache Bytes) = _
  unfold Cache.evictIfNeededLocked
  rw [if_neg (by
    show ¬ ((((khd :: ktl).length : Nat) : Int) ≤ 0)
    simp only [List.length_cons]
    omega)]
  rw [Cache.sweep_id (by
    intro e he
    rcases List.mem_cons.1 he with rfl | hmem
    · exact Cache.setEntry_live k2 v 0 now
    · obtain ⟨k3, _, rfl⟩ := List.mem_map.1 hmem
      exact Cache.setEntry_live k3 v 0 now)]
  show Cache.evictLoop (((khd :: ktl).reverse).length + 1)
    (⟨((khd :: ktl).length : Int), k2 :: (khd :: ktl).reverse,
      Cache.setEntry k2 v 0 now
        :: ((khd :: ktl).reverse).map (fun k => Cache.setEntry k v 0 now),
      false⟩ : Cache Bytes) = _
  rw [Cache.evictLoop_succ]
  rw [if_pos (by
    show (((k2 :: (khd :: ktl).reverse).length : Nat) : Int)
      > (((khd :: ktl).length : Nat) : Int)
    simp only [List.length_cons, List.length_reverse]
    omega)]
  have hlast : (Cache.setEntry k2 v 0 now
      :: ((khd :: ktl).reverse).map (fun k => Cache.setEntry k v 0 now)).getLast?
      = some (Cache.setEntry khd v 0 now) := by
    rw [List.reverse_cons, List.map_append]
    simp only [List.map_cons, List.map_nil]
    rw [← List.cons_append]
    exact List.getLast?_concat _
  rw [hlast]
  simp only []
  have hkey : (Cache.setEntry khd v 0 now).key = khd := rfl
  rw [hkey]
  have hdel : Cache.deleteLocked khd
      (⟨((khd :: ktl).length : Int), k2 :: (khd :: ktl).reverse,
        Cache.setEntry k2 v 0 now
          :: ((khd :: ktl).reverse).map (fun k => Cache.setEntry k v 0 now),
        false⟩ : Cache Bytes)
      = ⟨((khd :: ktl).length : Int), k2 :: ktl.reverse,
         (k2 :: ktl.reverse).map (fun k => Cache.setEntry k v 0 now),
         false⟩ := by
    unfold Cache.deleteLocked
    rw [if_pos (by
      rw [contains_eq_decide_mem]
      refine decide_eq_true (List.mem_cons_of_mem k2 ?_)
      rw [List.reverse_cons]
      exact List.mem_append.2 (Or.inr (List.mem_cons_self khd [])))]
    show (⟨((khd :: ktl).length : Int),
      (k2 :: (khd :: ktl).reverse).erase khd,
      (Cache.setEntry k2 v 0 now
        :: ((khd :: ktl).reverse).map (fun k => Cache.setEntry k v 0 now)).eraseP
          (fun x => x.key == khd),
      false⟩ : Cache Bytes) = _
    have hitems : (k2 :: (khd :: ktl).reverse).erase khd
        = k2 :: ktl.reverse := by
      rw [List.erase_cons_tail (by simp [hne])]
      rw [List.reverse_cons, List.erase_append_right _ hkhd_notin_rev,
        List.erase_cons_head]
      simp
    have hlru : (Cache.setEntry k2 v 0 now
        :: ((khd :: ktl).reverse).map (fun k => Cache.setEntry k v 0 now)).eraseP
          (fun x => x.key == khd)
        = (k2 :: ktl.reverse).map (fun k => Cache.setEntry k v 0 now) := by
      rw [List.eraseP_cons_of_neg (by simp [Cache.setEntry, hne])]
      rw [List.reverse_cons, List.map_append]
      rw [List.eraseP_append_right _ (by
        intro b hb
        obtain ⟨k3, hk3, rfl⟩ := List.mem_map.1 hb
        simp only [Cache.setEntry]
        simp only [Bool.not_eq_true, beq_eq_false_iff_ne]
        exact fun hcontr => hkhd_notin_rev (hcontr ▸ hk3))]
      simp only [List.map_cons, List.map_nil]
      rw [List.eraseP_cons_of_pos (by simp [Cache.setEntry])]
      simp [List.map_cons]
    rw [hitems, hlru]
  rw [hdel]
  refine Cache.evictLoop_stop _ (by
    show ¬ ((((k2 :: ktl.reverse).length : Nat) : Int)
      > (((khd :: ktl).length : Nat) : Int))
    simp only [List.length_cons, List.length_reverse]
    omega)

end Cache

/-- C4: the spec's LRU scenario — capacity 2, `Set a`, `Set b`,
`Get a` (promoting a), `Set c` — evicts exactly key b: afterwards b is
not found while a and c are, and the recency order is `[c, a]`.  In
general, with capacity N, inserting N distinct keys and then one more
evicts exactly the first-inserted (least recently used) key: the final
key set is the new key plus all but the first, the first key is
not found, and the new key and every other old key are retrievable. -/
theorem C4_lru_eviction (v : Bytes) (now : Nat) :
    ((Cache.Get "b" 14 ((Cache.Set "c" [3] 0 13
        ((Cache.Get "a" 12 ((Cache.Set "b" [2] 0 11
          ((Cache.Set "a" [1] 0 10 (Cache.New 2 : Cache Bytes)).2)).2)).2)).2)).1
        = none
      ∧ (Cache.Get "a" 14 ((Cache.Set "c" [3] 0 13
          ((Cache.Get "a" 12 ((Cache.Set "b" [2] 0 11
            ((Cache.Set "a" [1] 0 10 (Cache.New 2 : Cache Bytes)).2)).2)).2)).2)).1
          = some (cloneBytes [1])
      ∧ (Cache.Get "c" 14 ((Cache.Set "c" [3] 0 13
          ((Cache.Get "a" 12 ((Cache.Set "b" [2] 0 11
            ((Cache.Set "a" [1] 0 10 (Cache.New 2 : Cache Bytes)).2)).2)).2)).2)).1
          = some (cloneBytes [3])
      ∧ Cache.Keys ((Cache.Set "c" [3] 0 13
          ((Cache.Get "a" 12 ((Cache.Set "b" [2] 0 11
            ((Cache.Set "a" [1] 0 10 (Cache.New 2 : Cache Bytes)).2)).2)).2)).2)
          = ["c", "a"])
    ∧ (∀ (k2 khd : String) (ktl : List String),
        (khd :: ktl).Nodup → k2 ∉ khd :: ktl →
        Cache.Keys ((Cache.Set k2 v 0 now (Cache.setAll v now (khd :: ktl)
            (Cache.New ((khd :: ktl).length : Int)))).2)
          = k2 :: ktl.reverse
        ∧ (Cache.Get khd now ((Cache.Set k2 v 0 now
            (Cache.setAll v now (khd :: ktl)
              (Cache.New ((khd :: ktl).length : Int)))).2)).1 = none
        ∧ ∀ k ∈ k2 :: ktl,
            (Cache.Get k now ((Cache.Set k2 v 0 now
              (Cache.setAll v now (khd :: ktl)
                (Cache.New ((khd :: ktl).length : Int)))).2)).1
              = some (cloneBytes v)) := by
  constructor
  · exact ⟨by decide, by decide, by decide, by decide⟩
  · intro k2 khd ktl hnd hk2
    have hkhd_tl : khd ∉ ktl := (List.nodup_cons.1 hnd).1
    have hktl : ktl.Nodup := (List.nodup_cons.1 hnd).2
    have hne : k2 ≠ khd := fun hcontr =>
      hk2 (hcontr ▸ List.mem_cons_self khd ktl)
    have hk2tl : k2 ∉ ktl := fun hcontr =>
      hk2 (List.mem_cons_of_mem khd hcontr)
    have hstate : Cache.setAll v now (khd :: ktl)
        (Cache.New ((khd :: ktl).length : Int))
        = ⟨((khd :: ktl).length : Int), (khd :: ktl).reverse,
           ((khd :: ktl).reverse).map (fun k => Cache.setEntry k v 0 now),
           false⟩ := by
      have hf := Cache.setAll_fresh v now ((khd :: ktl).length : Int)
        (khd :: ktl) [] (by simpa using hnd) (by simp)
      simpa [Cache.New] using hf
    have hset := Cache.set_evicts_lru v now k2 khd ktl hnd hk2
    rw [hstate, hset]
    have hkeys : ((k2 :: ktl.reverse).map
        (fun k => Cache.setEntry k v 0 now)).map entry.key
        = k2 :: ktl.reverse := Cache.map_key_keyState _ v now
    have hInv : (⟨((khd :: ktl).length : Int), k2 :: ktl.reverse,
        (k2 :: ktl.reverse).map (fun k => Cache.setEntry k v 0 now),
        false⟩ : Cache Bytes).Inv := by
      refine Cache.Inv_of_keyState _ _ ?_ v now
      refine List.nodup_cons.2 ⟨fun hcontr => hk2tl (List.mem_reverse.1 hcontr), ?_⟩
      exact List.nodup_reverse.2 hktl
    refine ⟨hkeys, ?_, ?_⟩
    · rw [Cache.Get_absent hInv (by
        rw [hkeys]
        intro hcontr
        rcases List.mem_cons.1 hcontr with heq | hmem
        · exact hne heq.symm
        · exact hkhd_tl (List.mem_reverse.1 hmem)) now]
    · intro k hkmem
      have hkmem2 : k ∈ k2 :: ktl.reverse := by
        rcases List.mem_cons.1 hkmem with rfl | hm
        · exact List.mem_cons_self _ _
        · exact List.mem_cons_of_mem _ (List.mem_reverse.2 hm)
      have he : Cache.setEntry k v 0 now
          ∈ (k2 :: ktl.reverse).map (fun k3 => Cache.setEntry k3 v 0 now) :=
        List.mem_map_of_mem _ hkmem2
      rw [@Cache.Get_live _ hInv _ he k rfl now
        (Cache.setEntry_live k v 0 now)]
      rfl

theorem C4_lru_eviction_witness :
    Cache.Keys ((Cache.Set "z" [5] 0 20 (Cache.setAll [5] 20 ["x", "y"]
        (Cache.New ((["x", "y"] : List String).length : Int)))).2)
      = ["z", "y"] :=
  ((C4_lru_eviction [5] 20).2 "z" "x" ["y"] (by decide) (by decide)).1

end GoCache
